import Mathlib

/-!
Verification of the mandotab core (`tab_core.py`): a position resolver that
maps MIDI note events to mandolin tablature positions, and an ASCII renderer.

Times and confidences are modelled as rationals (Python floats are rationals,
and every comparison the code performs on them is exact); MIDI pitches,
string indices and frets are integers.  Python's stable `sorted` by a key is
modelled by a stable insertion sort (`sortOn`); stable sorting by a key is
extensionally unique, so this is a faithful model.  Python's `min` / leading
element of `sorted` (which keep the first element among ties) are modelled by
`pyMin`, a left fold that replaces the current best only on strict
improvement.
-/

namespace Mandotab

/-- A detected musical note from audio (`NoteEvent` in the source). -/
structure NoteEvent where
  start_time : ℚ
  end_time : ℚ
  midi : ℤ
  confidence : ℚ := 1
deriving DecidableEq, Repr

/-- A single note placed on mandolin tablature (`TabEvent` in the source). -/
structure TabEvent where
  start_time : ℚ
  end_time : ℚ
  string : ℤ
  fret : ℤ
  midi : ℤ
deriving DecidableEq, Repr

/-- Standard mandolin tuning in MIDI, in the dict's insertion order
(string 4 = G3 first, then 3, 2, 1). -/
def MANDOLIN_TUNING : List (ℤ × ℤ) := [(4, 55), (3, 62), (2, 69), (1, 76)]

/-- Fret ceiling. -/
def MAX_FRET : ℤ := 20

/-- All (string, fret) candidates that can play the given MIDI pitch,
in tuning-table order. -/
def candidates_for_midi (midi : ℤ) : List (ℤ × ℤ) :=
  MANDOLIN_TUNING.filterMap fun p =>
    if 0 ≤ midi - p.2 ∧ midi - p.2 ≤ MAX_FRET then some (p.1, midi - p.2) else none

/-- The weighted distance cost from the previous position:
`|fret - prev.fret| * 1.0 + |string - prev.string| * 0.7`.
Both distances are non-negative integers, so the source's floating-point
cost is the exact rational `df + ds * 7/10`, and comparisons of such costs
in IEEE doubles coincide with exact rational comparisons for every value
the program can produce (the terms differ by at least 1/10 when distinct
or by 0, far above the rounding error of these small floats). -/
def score (prev : TabEvent) (sf : ℤ × ℤ) : ℚ :=
  ((sf.2 - prev.fret).natAbs : ℚ) * 1 + ((sf.1 - prev.string).natAbs : ℚ) * (7 / 10)

/-- The same cost scaled by 10, as an integer: `10*df + 7*ds`.  This is the
executable order-isomorphic representation of `score` (see `score10_le_iff`
and `score10_lt_iff`); `choose_position` compares costs through it because
only integer arithmetic evaluates by kernel reduction. -/
def score10 (prev : TabEvent) (sf : ℤ × ℤ) : ℤ :=
  (sf.2 - prev.fret).natAbs * 10 + (sf.1 - prev.string).natAbs * 7

/-- Leftmost minimum of `a :: l` under `key` — the semantics of Python's
`min(..., key=...)` and of `sorted(..., key=...)[0]`, both of which keep the
earliest element among ties. -/
def pyMin {α β : Type} [LinearOrder β] (key : α → β) (a : α) (l : List α) : α :=
  l.foldl (fun best c => if key c < key best then c else best) a

/-- Sort key for the first-note rule: lowest fret first, then lowest string. -/
def firstKey (sf : ℤ × ℤ) : Lex (ℤ × ℤ) := toLex (sf.2, sf.1)

/-- Choose a (string, fret) for a MIDI note; `none` when out of range. -/
def choose_position (midi : ℤ) (prev : Option TabEvent) : Option (ℤ × ℤ) :=
  match candidates_for_midi midi, prev with
  | [], _ => none
  | c :: cs, none => some (pyMin firstKey c cs)
  | c :: cs, some p => some (pyMin (score10 p) c cs)

/-- Insert into a list sorted by `key`, before the first element with a key
that is not smaller — the placement a stable sort gives a new leftmost
element. -/
def insortOn {α : Type} (key : α → ℚ) (x : α) : List α → List α
  | [] => [x]
  | y :: ys => if key x ≤ key y then x :: y :: ys else y :: insortOn key x ys

/-- Stable sort by a rational key (the model of Python's `sorted(key=...)`;
any two stable sorts agree extensionally). -/
def sortOn {α : Type} (key : α → ℚ) : List α → List α
  | [] => []
  | x :: xs => insortOn key x (sortOn key xs)

/-- The resolution loop of `notes_to_tab`: thread the previous successfully
placed position through the (already sorted) notes; skip unplayable notes. -/
def tabLoop (prev : Option TabEvent) : List NoteEvent → List TabEvent
  | [] => []
  | n :: ns =>
    match choose_position n.midi prev with
    | none => tabLoop prev ns
    | some sf =>
      ⟨n.start_time, n.end_time, sf.1, sf.2, n.midi⟩ ::
        tabLoop (some ⟨n.start_time, n.end_time, sf.1, sf.2, n.midi⟩) ns

/-- Map a NoteEvent sequence to a TabEvent sequence (`notes_to_tab`). -/
def notes_to_tab (note_events : List NoteEvent) : List TabEvent :=
  if note_events.isEmpty then []
  else tabLoop none (sortOn NoteEvent.start_time note_events)

/-- The decimal digit character for `d < 10`. -/
def digitChar (d : ℕ) : Char := Char.ofNat (48 + d)

/-- Fuel-indexed decimal digits of a natural number (most significant first);
structural in the fuel so that it evaluates by kernel reduction.  The fuel is
irrelevant as long as it exceeds the number (`decDigitsAux_congr`). -/
def decDigitsAux : ℕ → ℕ → List Char
  | 0, _ => []
  | fuel + 1, n =>
    if n < 10 then [digitChar n]
    else decDigitsAux fuel (n / 10) ++ [digitChar (n % 10)]

/-- The decimal digits of a natural number, most significant first. -/
def decDigits (n : ℕ) : List Char := decDigitsAux (n + 1) n

/-- The characters of Python's `str()` on an integer: decimal digits with a
leading minus sign when negative. -/
def pyStr (i : ℤ) : List Char :=
  if i < 0 then '-' :: decDigits (-i).toNat else decDigits i.toNat

/-- The renderer's 2-character cell for the sounding string: `str(ev.fret)`
left-padded with `-` to width 2 when it is a single character, truncated to
its last 2 characters when longer. -/
def fretCell (ev : TabEvent) : List Char :=
  let t := pyStr ev.fret
  if t.length = 1 then '-' :: t else t.drop (t.length - 2)

/-- The cell the renderer emits on string `s` for the event `ev`: the fret
cell when `ev` sounds on `s`, the 2-character fill `--` otherwise. -/
def cellFor (s : ℤ) (ev : TabEvent) : List Char :=
  if s = ev.string then fretCell ev else ['-', '-']

/-- One rendered line: the string label, a bar, the event cells in time
order, and a closing bar. -/
def lineFor (label : Char) (s : ℤ) (evs : List TabEvent) : List Char :=
  label :: '|' :: (evs.map (cellFor s)).flatten ++ ['|']

/-- Render a simple ASCII mandolin tab (`render_ascii_tab`): empty input
yields the fixed header block, otherwise the four lines (E, A, D, G, i.e.
strings 1, 2, 3, 4) joined by newlines, cells in stable start-time order. -/
def render_ascii_tab (tab_events : List TabEvent) : String :=
  if tab_events.isEmpty then "E|\nA|\nD|\nG|\n"
  else
    String.mk
      (lineFor 'E' 1 (sortOn TabEvent.start_time tab_events) ++
        '\n' :: (lineFor 'A' 2 (sortOn TabEvent.start_time tab_events) ++
          '\n' :: (lineFor 'D' 3 (sortOn TabEvent.start_time tab_events) ++
            '\n' :: lineFor 'G' 4 (sortOn TabEvent.start_time tab_events))))

/-- Projection of a tab event to the data copied verbatim from its note. -/
def tabSig (t : TabEvent) : ℚ × ℚ × ℤ := (t.start_time, t.end_time, t.midi)

/-- Projection of a note to the data the resolver copies into tab events. -/
def noteSig (n : NoteEvent) : ℚ × ℚ × ℤ := (n.start_time, n.end_time, n.midi)

/-- A note is playable when its pitch has at least one candidate. -/
def playable (n : NoteEvent) : Bool := !(candidates_for_midi n.midi).isEmpty

/-- Forget the confidence of a note (normalise it to the default 1). -/
def stripConf (n : NoteEvent) : NoteEvent := { n with confidence := 1 }

/-! ### Generic facts about `pyMin` -/

theorem pyMin_cons {α β : Type} [LinearOrder β] (key : α → β) (a c : α) (l : List α) :
    pyMin key a (c :: l) = pyMin key (if key c < key a then c else a) l := rfl

theorem pyMin_mem {α β : Type} [LinearOrder β] (key : α → β) (a : α) (l : List α) :
    pyMin key a l ∈ a :: l := by
  induction l generalizing a with
  | nil => simp [pyMin]
  | cons c l ih =>
    rw [pyMin_cons]
    by_cases hca : key c < key a
    · rw [if_pos hca]
      rcases List.mem_cons.mp (ih c) with h | h
      · simp [h]
      · simp [List.mem_cons.mpr (Or.inr h)]
    · rw [if_neg hca]
      rcases List.mem_cons.mp (ih a) with h | h
      · simp [h]
      · simp [List.mem_cons.mpr (Or.inr h)]

theorem pyMin_le {α β : Type} [LinearOrder β] (key : α → β) (a : α) (l : List α) :
    ∀ x ∈ a :: l, key (pyMin key a l) ≤ key x := by
  induction l generalizing a with
  | nil =>
    intro x hx
    rcases List.mem_cons.mp hx with h | h
    · subst h; exact le_rfl
    · cases h
  | cons c l ih =>
    intro x hx
    rw [pyMin_cons]
    by_cases hca : key c < key a
    · rw [if_pos hca]
      rcases List.mem_cons.mp hx with h | h
      · subst h
        exact le_trans (ih c c (List.mem_cons_self c l)) (le_of_lt hca)
      · rcases List.mem_cons.mp h with h' | h'
        · subst h'; exact ih x x (List.mem_cons_self x l)
        · exact ih c x (List.mem_cons.mpr (Or.inr h'))
    · rw [if_neg hca]
      rcases List.mem_cons.mp hx with h | h
      · subst h; exact ih x x (List.mem_cons_self x l)
      · rcases List.mem_cons.mp h with h' | h'
        · subst h'
          exact le_trans (ih a a (List.mem_cons_self a l)) (not_lt.mp hca)
        · exact ih a x (List.mem_cons.mpr (Or.inr h'))

theorem pyMin_split {α β : Type} [LinearOrder β] (key : α → β) (a : α) (l : List α) :
    ∃ l₁ l₂, a :: l = l₁ ++ pyMin key a l :: l₂ ∧
      ∀ x ∈ l₁, key (pyMin key a l) < key x := by
  induction l generalizing a with
  | nil => exact ⟨[], [], rfl, by simp⟩
  | cons c l ih =>
    rw [pyMin_cons]
    by_cases hca : key c < key a
    · rw [if_pos hca]
      obtain ⟨l₁, l₂, heq, hlt⟩ := ih c
      refine ⟨a :: l₁, l₂, ?_, ?_⟩
      · simpa using congrArg (a :: ·) heq
      · intro x hx
        rcases List.mem_cons.mp hx with h | h
        · subst h
          exact lt_of_le_of_lt (pyMin_le key c l c (List.mem_cons_self c l)) hca
        · exact hlt x h
    · rw [if_neg hca]
      obtain ⟨l₁, l₂, heq, hlt⟩ := ih a
      cases l₁ with
      | nil =>
        simp only [List.nil_append] at heq
        have h1 : a = pyMin key a l := ((List.cons.injEq _ _ _ _).mp heq).1
        refine ⟨[], c :: l, ?_, by simp⟩
        rw [List.nil_append, ← h1]
      | cons z t =>
        simp only [List.cons_append, List.cons.injEq] at heq
        obtain ⟨rfl, hl⟩ := heq
        refine ⟨a :: c :: t, l₂, ?_, ?_⟩
        · rw [List.cons_append, List.cons_append, ← hl]
        · intro x hx
          rcases List.mem_cons.mp hx with h | h
          · subst h
            exact hlt x (List.mem_cons_self _ _)
          · rcases List.mem_cons.mp h with h' | h'
            · subst h'
              exact lt_of_lt_of_le (hlt a (List.mem_cons_self _ _)) (not_lt.mp hca)
            · exact hlt x (List.mem_cons.mpr (Or.inr h'))

/-! ### Candidate generation -/

theorem mem_candidates {m : ℤ} {sf : ℤ × ℤ} (h : sf ∈ candidates_for_midi m) :
    0 ≤ sf.2 ∧ sf.2 ≤ MAX_FRET ∧
      ∃ op, MANDOLIN_TUNING.lookup sf.1 = some op ∧ op + sf.2 = m := by
  simp only [candidates_for_midi, List.mem_filterMap, MANDOLIN_TUNING,
    List.mem_cons, List.not_mem_nil, or_false] at h
  obtain ⟨p, hp, hif⟩ := h
  rcases hp with rfl | rfl | rfl | rfl <;>
    · split at hif
      · rename_i hcond
        cases hif
        refine ⟨hcond.1, hcond.2, ?_⟩
        exact ⟨_, rfl, by omega⟩
      · cases hif

theorem filterMap_fst_sublist (f : ℤ × ℤ → Option (ℤ × ℤ))
    (hf : ∀ p q, f p = some q → q.1 = p.1) (l : List (ℤ × ℤ)) :
    ((l.filterMap f).map Prod.fst).Sublist (l.map Prod.fst) := by
  induction l with
  | nil => simp
  | cons a l ih =>
    rw [List.filterMap_cons]
    rcases hfa : f a with _ | b
    · exact List.Sublist.trans ih (List.sublist_cons_self _ _)
    · rw [List.map_cons, List.map_cons, hf a b hfa]
      exact List.Sublist.cons₂ _ ih

theorem candidates_strings {m : ℤ} :
    ((candidates_for_midi m).map Prod.fst).Sublist [4, 3, 2, 1] := by
  have h := filterMap_fst_sublist
    (fun p => if 0 ≤ m - p.2 ∧ m - p.2 ≤ MAX_FRET then some (p.1, m - p.2) else none)
    (by
      intro p q hpq
      simp only at hpq
      split at hpq
      · cases hpq; rfl
      · cases hpq)
    MANDOLIN_TUNING
  exact h

theorem candidates_strings_desc {m : ℤ} :
    (candidates_for_midi m).Pairwise (fun a b => b.1 < a.1) := by
  have h4 : ([4, 3, 2, 1] : List ℤ).Pairwise (fun a b => b < a) := by decide
  have := List.Pairwise.sublist (@candidates_strings m) h4
  exact (List.pairwise_map.mp this)

/-! ### `choose_position` -/

theorem choose_position_none {m : ℤ} {prev : Option TabEvent}
    (h : candidates_for_midi m = []) : choose_position m prev = none := by
  unfold choose_position
  rw [h]

theorem choose_position_cons_first {m : ℤ} {c : ℤ × ℤ} {cs : List (ℤ × ℤ)}
    (h : candidates_for_midi m = c :: cs) :
    choose_position m none = some (pyMin firstKey c cs) := by
  unfold choose_position
  rw [h]

theorem choose_position_cons_prev {m : ℤ} {c : ℤ × ℤ} {cs : List (ℤ × ℤ)} {p : TabEvent}
    (h : candidates_for_midi m = c :: cs) :
    choose_position m (some p) = some (pyMin (score10 p) c cs) := by
  unfold choose_position
  rw [h]

theorem choose_position_mem {m : ℤ} {prev : Option TabEvent} {r : ℤ × ℤ}
    (h : choose_position m prev = some r) : r ∈ candidates_for_midi m := by
  rcases hc : candidates_for_midi m with _ | ⟨c, cs⟩
  · rw [choose_position_none hc] at h
    cases h
  · cases prev with
    | none =>
      rw [choose_position_cons_first hc] at h
      cases h
      exact pyMin_mem _ c cs
    | some p =>
      rw [choose_position_cons_prev hc] at h
      cases h
      exact pyMin_mem _ c cs

theorem choose_position_isSome {m : ℤ} {prev : Option TabEvent}
    (h : candidates_for_midi m ≠ []) : ∃ r, choose_position m prev = some r := by
  rcases hc : candidates_for_midi m with _ | ⟨c, cs⟩
  · exact absurd hc h
  · cases prev with
    | none => exact ⟨_, choose_position_cons_first hc⟩
    | some p => exact ⟨_, choose_position_cons_prev hc⟩

/-! ### The integer-scaled cost is order-isomorphic to the rational cost -/

theorem score_eq_score10 (p : TabEvent) (sf : ℤ × ℤ) :
    score p sf = (score10 p sf : ℚ) / 10 := by
  rw [score, score10]
  push_cast [Int.cast_natAbs]
  ring

theorem score10_le_iff (p : TabEvent) (a b : ℤ × ℤ) :
    score10 p a ≤ score10 p b ↔ score p a ≤ score p b := by
  rw [score_eq_score10, score_eq_score10,
    div_le_div_iff_of_pos_right (by norm_num : (0:ℚ) < 10)]
  exact_mod_cast Iff.rfl

theorem score10_lt_iff (p : TabEvent) (a b : ℤ × ℤ) :
    score10 p a < score10 p b ↔ score p a < score p b := by
  rw [score_eq_score10, score_eq_score10,
    div_lt_div_iff_of_pos_right (by norm_num : (0:ℚ) < 10)]
  exact_mod_cast Iff.rfl

theorem score10_eq_iff (p : TabEvent) (a b : ℤ × ℤ) :
    score10 p a = score10 p b ↔ score p a = score p b := by
  constructor
  · intro h
    exact le_antisymm ((score10_le_iff p a b).mp h.le) ((score10_le_iff p b a).mp h.ge)
  · intro h
    exact le_antisymm ((score10_le_iff p a b).mpr h.le) ((score10_le_iff p b a).mpr h.ge)

/-! ### The stable sort `sortOn` -/

theorem insortOn_cons {α : Type} (key : α → ℚ) (x y : α) (ys : List α) :
    insortOn key x (y :: ys) =
      if key x ≤ key y then x :: y :: ys else y :: insortOn key x ys := rfl

theorem mem_insortOn {α : Type} (key : α → ℚ) (x : α) (l : List α) (a : α) :
    a ∈ insortOn key x l ↔ a = x ∨ a ∈ l := by
  induction l with
  | nil => simp [insortOn]
  | cons y ys ih =>
    rw [insortOn]
    split
    · simp [List.mem_cons]
    · simp only [List.mem_cons, ih]
      tauto

theorem length_insortOn {α : Type} (key : α → ℚ) (x : α) (l : List α) :
    (insortOn key x l).length = l.length + 1 := by
  induction l with
  | nil => rfl
  | cons y ys ih =>
    rw [insortOn]
    split
    · rfl
    · simp [ih]

theorem length_sortOn {α : Type} (key : α → ℚ) (l : List α) :
    (sortOn key l).length = l.length := by
  induction l with
  | nil => rfl
  | cons x xs ih =>
    rw [sortOn, length_insortOn, ih]
    rfl

theorem mem_sortOn {α : Type} (key : α → ℚ) (l : List α) (a : α) :
    a ∈ sortOn key l ↔ a ∈ l := by
  induction l with
  | nil => simp [sortOn]
  | cons x xs ih =>
    rw [sortOn, mem_insortOn]
    simp [ih]

theorem sorted_insortOn {α : Type} (key : α → ℚ) (x : α) {l : List α}
    (h : l.Pairwise fun a b => key a ≤ key b) :
    (insortOn key x l).Pairwise fun a b => key a ≤ key b := by
  induction l with
  | nil => simp [insortOn]
  | cons y ys ih =>
    rw [insortOn]
    rcases List.pairwise_cons.mp h with ⟨hy, hys⟩
    split
    · rename_i hxy
      refine List.pairwise_cons.mpr ⟨?_, h⟩
      intro z hz
      rcases List.mem_cons.mp hz with rfl | hz'
      · exact hxy
      · exact le_trans hxy (hy z hz')
    · rename_i hxy
      refine List.pairwise_cons.mpr ⟨?_, ih hys⟩
      intro z hz
      rcases (mem_insortOn key x ys z).mp hz with rfl | hz'
      · exact le_of_not_le hxy
      · exact hy z hz'

theorem sorted_sortOn {α : Type} (key : α → ℚ) (l : List α) :
    (sortOn key l).Pairwise fun a b => key a ≤ key b := by
  induction l with
  | nil => simp [sortOn]
  | cons x xs ih => exact sorted_insortOn key x ih

theorem insortOn_of_le {α : Type} (key : α → ℚ) (x : α) {l : List α}
    (h : ∀ z ∈ l, key x ≤ key z) : insortOn key x l = x :: l := by
  cases l with
  | nil => rfl
  | cons y ys =>
    rw [insortOn, if_pos (h y (List.mem_cons_self y ys))]

theorem filter_insortOn {α : Type} (key : α → ℚ) (p : α → Bool) (x : α) {l : List α}
    (hs : l.Pairwise fun a b => key a ≤ key b) :
    (insortOn key x l).filter p =
      if p x then insortOn key x (l.filter p) else l.filter p := by
  induction l with
  | nil =>
    rcases hpx : p x with _ | _ <;> simp [insortOn, hpx]
  | cons y ys ih =>
    rcases List.pairwise_cons.mp hs with ⟨hy, hys⟩
    rw [insortOn]
    by_cases hxy : key x ≤ key y
    · rw [if_pos hxy]
      rcases hpx : p x with _ | _ <;> rcases hpy : p y with _ | _
      · simp [List.filter_cons, hpx, hpy]
      · simp [List.filter_cons, hpx, hpy]
      · simp only [List.filter_cons, hpx, hpy, if_true, Bool.false_eq_true, if_false]
        rw [insortOn_of_le]
        intro z hz
        exact le_trans hxy (hy z (List.mem_of_mem_filter hz))
      · simp only [List.filter_cons, hpx, hpy, if_true]
        rw [insortOn, if_pos hxy]
    · rw [if_neg hxy]
      rcases hpx : p x with _ | _ <;> rcases hpy : p y with _ | _ <;>
        simp only [List.filter_cons, hpy] <;> rw [ih hys] <;>
          simp [hpx, insortOn_cons, hxy]

theorem filter_sortOn {α : Type} (key : α → ℚ) (p : α → Bool) (l : List α) :
    (sortOn key l).filter p = sortOn key (l.filter p) := by
  induction l with
  | nil => rfl
  | cons x xs ih =>
    rw [sortOn, filter_insortOn key p x (sorted_sortOn key xs), List.filter_cons]
    rcases hpx : p x with _ | _
    · simp only [Bool.false_eq_true, if_false]
      exact ih
    · simp only [if_true]
      rw [sortOn, ih]

theorem sublist_insortOn {α : Type} (key : α → ℚ) (x : α) (l : List α) :
    l.Sublist (insortOn key x l) := by
  induction l with
  | nil => simp [insortOn]
  | cons y ys ih =>
    rw [insortOn_cons]
    split
    · exact List.sublist_cons_self _ _
    · exact List.Sublist.cons₂ y ih

theorem insortOn_pair {α : Type} (key : α → ℚ) (x b : α) {l : List α}
    (hb : b ∈ l) (hxb : key x ≤ key b) : [x, b].Sublist (insortOn key x l) := by
  induction l with
  | nil => cases hb
  | cons y ys ih =>
    rw [insortOn_cons]
    by_cases hxy : key x ≤ key y
    · rw [if_pos hxy]
      exact List.Sublist.cons₂ x (List.singleton_sublist.mpr hb)
    · rw [if_neg hxy]
      rcases List.mem_cons.mp hb with rfl | hb'
      · exact absurd hxb hxy
      · exact List.Sublist.cons y (ih hb')

theorem sortOn_stable_pair {α : Type} (key : α → ℚ) {a b : α} {l : List α}
    (h : [a, b].Sublist l) (hab : key a ≤ key b) : [a, b].Sublist (sortOn key l) := by
  induction l with
  | nil => cases h
  | cons y ys ih =>
    rw [sortOn]
    cases h with
    | cons _ h' =>
      exact List.Sublist.trans (ih h') (sublist_insortOn key y (sortOn key ys))
    | cons₂ _ h' =>
      exact insortOn_pair key a b ((mem_sortOn key ys b).mpr
        (List.singleton_sublist.mp h')) hab

theorem insortOn_map {α : Type} (key : α → ℚ) (f : α → α)
    (hf : ∀ z, key (f z) = key z) (x : α) (l : List α) :
    insortOn key (f x) (l.map f) = (insortOn key x l).map f := by
  induction l with
  | nil => rfl
  | cons y ys ih =>
    rw [List.map_cons, insortOn_cons, insortOn_cons, hf x, hf y]
    split
    · rfl
    · rw [List.map_cons, ih]

theorem sortOn_map {α : Type} (key : α → ℚ) (f : α → α)
    (hf : ∀ z, key (f z) = key z) (l : List α) :
    sortOn key (l.map f) = (sortOn key l).map f := by
  induction l with
  | nil => rfl
  | cons x xs ih =>
    rw [List.map_cons, sortOn, sortOn, ih, insortOn_map key f hf]

/-! ### The resolution loop -/

theorem tabLoop_cons_skip {prev : Option TabEvent} {n : NoteEvent} {ns : List NoteEvent}
    (h : choose_position n.midi prev = none) :
    tabLoop prev (n :: ns) = tabLoop prev ns := by
  conv_lhs => rw [tabLoop]
  rw [h]

theorem tabLoop_cons_step {prev : Option TabEvent} {n : NoteEvent} {ns : List NoteEvent}
    {sf : ℤ × ℤ} (h : choose_position n.midi prev = some sf) :
    tabLoop prev (n :: ns) =
      ⟨n.start_time, n.end_time, sf.1, sf.2, n.midi⟩ ::
        tabLoop (some ⟨n.start_time, n.end_time, sf.1, sf.2, n.midi⟩) ns := by
  conv_lhs => rw [tabLoop]
  rw [h]

theorem notes_to_tab_eq (ns : List NoteEvent) :
    notes_to_tab ns = tabLoop none (sortOn NoteEvent.start_time ns) := by
  rw [notes_to_tab]
  split
  · rename_i h
    rw [List.isEmpty_iff.mp h]
    rfl
  · rfl

theorem playable_false_iff {n : NoteEvent} :
    playable n = false ↔ candidates_for_midi n.midi = [] := by
  rw [playable, Bool.not_eq_false', List.isEmpty_iff]

theorem tabLoop_mem_candidates (prev : Option TabEvent) (l : List NoteEvent) :
    ∀ t ∈ tabLoop prev l, (t.string, t.fret) ∈ candidates_for_midi t.midi := by
  induction l generalizing prev with
  | nil => intro t ht; cases ht
  | cons n ns ih =>
    intro t ht
    rcases hch : choose_position n.midi prev with _ | sf
    · rw [tabLoop_cons_skip hch] at ht
      exact ih prev t ht
    · rw [tabLoop_cons_step hch] at ht
      rcases List.mem_cons.mp ht with rfl | ht'
      · simpa using choose_position_mem hch
      · exact ih _ t ht'

theorem tabLoop_sig (prev : Option TabEvent) (l : List NoteEvent) :
    (tabLoop prev l).map tabSig = (l.filter playable).map noteSig := by
  induction l generalizing prev with
  | nil => rfl
  | cons n ns ih =>
    rcases hpl : playable n with _ | _
    · rw [tabLoop_cons_skip (choose_position_none (playable_false_iff.mp hpl))]
      rw [List.filter_cons, hpl]
      simp only [Bool.false_eq_true, if_false]
      exact ih prev
    · have hne : candidates_for_midi n.midi ≠ [] := by
        intro hc
        rw [playable_false_iff.mpr hc] at hpl
        cases hpl
      obtain ⟨sf, hsf⟩ := @choose_position_isSome n.midi prev hne
      rw [tabLoop_cons_step hsf, List.filter_cons, hpl]
      simp only [if_true, List.map_cons]
      rw [ih]
      rfl

theorem tabLoop_filter (prev : Option TabEvent) (l : List NoteEvent) :
    tabLoop prev (l.filter playable) = tabLoop prev l := by
  induction l generalizing prev with
  | nil => rfl
  | cons n ns ih =>
    rcases hpl : playable n with _ | _
    · rw [List.filter_cons, hpl]
      simp only [Bool.false_eq_true, if_false]
      rw [tabLoop_cons_skip (choose_position_none (playable_false_iff.mp hpl)), ih]
    · have hne : candidates_for_midi n.midi ≠ [] := by
        intro hc
        rw [playable_false_iff.mpr hc] at hpl
        cases hpl
      obtain ⟨sf, hsf⟩ := @choose_position_isSome n.midi prev hne
      rw [List.filter_cons, hpl]
      simp only [if_true]
      rw [tabLoop_cons_step hsf, tabLoop_cons_step hsf, ih]

theorem stripConf_fields {n m : NoteEvent} (h : stripConf n = stripConf m) :
    n.start_time = m.start_time ∧ n.end_time = m.end_time ∧ n.midi = m.midi := by
  rcases n with ⟨sn, en, mn, cn⟩
  rcases m with ⟨sm, em, mm, cm⟩
  cases h
  exact ⟨rfl, rfl, rfl⟩

theorem tabLoop_congr (prev : Option TabEvent) {l₁ l₂ : List NoteEvent}
    (h : l₁.map stripConf = l₂.map stripConf) : tabLoop prev l₁ = tabLoop prev l₂ := by
  induction l₁ generalizing prev l₂ with
  | nil =>
    rw [List.map_nil] at h
    rw [List.map_eq_nil_iff.mp h.symm]
  | cons n ns ih =>
    cases l₂ with
    | nil => cases h
    | cons m ms =>
      rw [List.map_cons, List.map_cons, List.cons.injEq] at h
      obtain ⟨hnm, hmaps⟩ := h
      obtain ⟨hs, he, hm⟩ := stripConf_fields hnm
      rcases hch : choose_position n.midi prev with _ | sf
      · rw [tabLoop_cons_skip hch, tabLoop_cons_skip (by rw [← hm]; exact hch), ih prev hmaps]
      · rw [tabLoop_cons_step hch, tabLoop_cons_step (by rw [← hm]; exact hch)]
        rw [hs, he, hm]
        rw [ih _ hmaps]

/-! ### Renderer: digits, cells and lines -/

theorem decDigitsAux_congr (f₁ : ℕ) : ∀ f₂ n, n < f₁ → n < f₂ →
    decDigitsAux f₁ n = decDigitsAux f₂ n := by
  induction f₁ with
  | zero => intro f₂ n h₁ h₂; omega
  | succ f ih =>
    intro f₂ n h₁ h₂
    cases f₂ with
    | zero => omega
    | succ g =>
      rw [decDigitsAux, decDigitsAux]
      by_cases hn : n < 10
      · rw [if_pos hn, if_pos hn]
      · rw [if_neg hn, if_neg hn, ih g (n / 10) (by omega) (by omega)]

theorem decDigits_lt {n : ℕ} (h : n < 10) : decDigits n = [digitChar n] := by
  rw [decDigits, decDigitsAux, if_pos h]

theorem decDigits_ge {n : ℕ} (h : 10 ≤ n) :
    decDigits n = decDigits (n / 10) ++ [digitChar (n % 10)] := by
  rw [decDigits, decDigits, decDigitsAux, if_neg (by omega)]
  rw [decDigitsAux_congr n (n / 10 + 1) (n / 10) (by omega) (by omega)]

theorem decDigits_length_pos (n : ℕ) : 1 ≤ (decDigits n).length := by
  by_cases h : n < 10
  · rw [decDigits_lt h]
    simp
  · rw [decDigits_ge (by omega)]
    simp

theorem decDigits_two {n : ℕ} (h10 : 10 ≤ n) (h100 : n < 100) :
    decDigits n = [digitChar (n / 10), digitChar (n % 10)] := by
  rw [decDigits_ge h10, decDigits_lt (by omega)]
  rfl

theorem decDigits_big {n : ℕ} (h : 100 ≤ n) :
    ∃ pre : List Char,
      decDigits n = pre ++ [digitChar (n / 10 % 10), digitChar (n % 10)] ∧
        1 ≤ pre.length := by
  rw [decDigits_ge (by omega), decDigits_ge (by omega : 10 ≤ n / 10)]
  exact ⟨decDigits (n / 10 / 10), by simp, decDigits_length_pos _⟩

theorem mem_decDigitsAux {c : Char} : ∀ {fuel n : ℕ}, c ∈ decDigitsAux fuel n →
    ∃ d, d < 10 ∧ c = digitChar d := by
  intro fuel
  induction fuel with
  | zero => intro n h; cases h
  | succ f ih =>
    intro n h
    rw [decDigitsAux] at h
    by_cases hn : n < 10
    · rw [if_pos hn] at h
      rcases List.mem_singleton.mp h with rfl
      exact ⟨n, hn, rfl⟩
    · rw [if_neg hn] at h
      rcases List.mem_append.mp h with h' | h'
      · exact ih h'
      · rcases List.mem_singleton.mp h' with rfl
        exact ⟨n % 10, by omega, rfl⟩

theorem digitChar_ne_newline {d : ℕ} (h : d < 10) : digitChar d ≠ '\n' := by
  interval_cases d <;> decide

theorem pyStr_length_pos (i : ℤ) : 1 ≤ (pyStr i).length := by
  rw [pyStr]
  split
  · simp
  · exact decDigits_length_pos _

theorem mem_pyStr_ne_newline {c : Char} {i : ℤ} (h : c ∈ pyStr i) : c ≠ '\n' := by
  rw [pyStr] at h
  split at h
  · rcases List.mem_cons.mp h with rfl | h'
    · decide
    · obtain ⟨d, hd, rfl⟩ := mem_decDigitsAux h'
      exact digitChar_ne_newline hd
  · obtain ⟨d, hd, rfl⟩ := mem_decDigitsAux h
    exact digitChar_ne_newline hd

theorem fretCell_length (ev : TabEvent) : (fretCell ev).length = 2 := by
  rw [fretCell]
  have hpos := pyStr_length_pos ev.fret
  split
  · rename_i h1
    simp [h1]
  · rename_i h1
    rw [List.length_drop]
    omega

theorem cellFor_length (s : ℤ) (ev : TabEvent) : (cellFor s ev).length = 2 := by
  rw [cellFor]
  split
  · exact fretCell_length ev
  · rfl

theorem mem_cellFor_ne_newline {c : Char} {s : ℤ} {ev : TabEvent}
    (h : c ∈ cellFor s ev) : c ≠ '\n' := by
  rw [cellFor] at h
  split at h
  · rw [fretCell] at h
    split at h
    · rcases List.mem_cons.mp h with rfl | h'
      · decide
      · exact mem_pyStr_ne_newline h'
    · exact mem_pyStr_ne_newline (List.mem_of_mem_drop h)
  · rcases List.mem_cons.mp h with rfl | h'
    · decide
    · rcases List.mem_singleton.mp h' with rfl
      decide

theorem cells_length (s : ℤ) (evs : List TabEvent) :
    ((evs.map (cellFor s)).flatten).length = 2 * evs.length := by
  induction evs with
  | nil => rfl
  | cons ev evs ih =>
    rw [List.map_cons, List.flatten_cons, List.length_append, ih, cellFor_length]
    simp only [List.length_cons]
    ring

theorem lineFor_length (label : Char) (s : ℤ) (evs : List TabEvent) :
    (lineFor label s evs).length = 2 + 2 * evs.length + 1 := by
  rw [lineFor]
  have hc := cells_length s evs
  simp only [List.length_cons, List.length_append, List.length_nil, hc]
  omega

theorem newline_not_mem_lineFor {label : Char} (hl : label ≠ '\n') (s : ℤ)
    (evs : List TabEvent) : '\n' ∉ lineFor label s evs := by
  rw [lineFor]
  intro h
  rcases List.mem_cons.mp h with h1 | h1
  · exact hl h1.symm
  rcases List.mem_cons.mp h1 with h2 | h2
  · exact absurd h2 (by decide)
  rcases List.mem_append.mp h2 with h3 | h3
  · obtain ⟨cell, hcell, hc3⟩ := List.mem_flatten.mp h3
    obtain ⟨ev, _, rfl⟩ := List.mem_map.mp hcell
    exact mem_cellFor_ne_newline hc3 rfl
  · exact absurd (List.mem_singleton.mp h3) (by decide)

/-! ### Claims -/

/-- C1: every TabEvent produced by `notes_to_tab` has a fret in `[0, MAX_FRET]`
and satisfies `MANDOLIN_TUNING[string] + fret = midi` exactly, where `midi` is
the pitch copied from the originating note. -/
theorem C1_fret_range_and_pitch (ns : List NoteEvent) (t : TabEvent)
    (h : t ∈ notes_to_tab ns) :
    0 ≤ t.fret ∧ t.fret ≤ MAX_FRET ∧
      ∃ op, MANDOLIN_TUNING.lookup t.string = some op ∧ op + t.fret = t.midi := by
  rw [notes_to_tab_eq] at h
  exact mem_candidates (tabLoop_mem_candidates none (sortOn NoteEvent.start_time ns) t h)

/-- Witness for C1 at a concrete input. -/
theorem C1_witness :
    0 ≤ (TabEvent.mk 0 1 2 0 69).fret ∧ (TabEvent.mk 0 1 2 0 69).fret ≤ MAX_FRET ∧
      ∃ op, MANDOLIN_TUNING.lookup (TabEvent.mk 0 1 2 0 69).string = some op ∧
        op + (TabEvent.mk 0 1 2 0 69).fret = (TabEvent.mk 0 1 2 0 69).midi :=
  C1_fret_range_and_pitch [NoteEvent.mk 0 1 69 1] (TabEvent.mk 0 1 2 0 69) (by decide)

/-- C2: with a previous position, `choose_position` returns a candidate of the
pitch whose weighted distance cost `|fret - prev.fret| * 1 + |string -
prev.string| * 7/10` is minimal over all valid candidates. -/
theorem C2_minimizes_cost (m : ℤ) (p : TabEvent) (r : ℤ × ℤ)
    (h : choose_position m (some p) = some r) :
    r ∈ candidates_for_midi m ∧ ∀ c ∈ candidates_for_midi m, score p r ≤ score p c := by
  rcases hc : candidates_for_midi m with _ | ⟨c0, cs⟩
  · rw [choose_position_none hc] at h
    cases h
  · rw [choose_position_cons_prev hc] at h
    cases h
    constructor
    · exact pyMin_mem _ c0 cs
    · intro c hcmem
      exact (score10_le_iff p _ c).mp (pyMin_le (score10 p) c0 cs c hcmem)

/-- Witness for C2 at a concrete input. -/
theorem C2_witness :
    ((2, 0) : ℤ × ℤ) ∈ candidates_for_midi 69 ∧
      ∀ c ∈ candidates_for_midi 69,
        score (TabEvent.mk 0 1 2 0 69) (2, 0) ≤ score (TabEvent.mk 0 1 2 0 69) c :=
  C2_minimizes_cost 69 (TabEvent.mk 0 1 2 0 69) (2, 0) (by decide)

/-- C3: for a single-note input whose pitch has a candidate, the resolver's
chosen position has the minimum fret among all valid candidates, and the
minimum string index among candidates tied on that fret. -/
theorem C3_first_note_rule (n : NoteEvent) (h : candidates_for_midi n.midi ≠ []) :
    ∃ t : TabEvent, notes_to_tab [n] = [t] ∧
      (t.string, t.fret) ∈ candidates_for_midi n.midi ∧
      ∀ c ∈ candidates_for_midi n.midi,
        t.fret ≤ c.2 ∧ (c.2 = t.fret → t.string ≤ c.1) := by
  rcases hc : candidates_for_midi n.midi with _ | ⟨c0, cs⟩
  · exact absurd hc h
  have hch : choose_position n.midi none = some (pyMin firstKey c0 cs) :=
    choose_position_cons_first hc
  refine ⟨⟨n.start_time, n.end_time, (pyMin firstKey c0 cs).1,
    (pyMin firstKey c0 cs).2, n.midi⟩, ?_, ?_, ?_⟩
  · rw [notes_to_tab_eq]
    have hs : sortOn NoteEvent.start_time [n] = [n] := rfl
    rw [hs, tabLoop_cons_step hch]
    rfl
  · simpa using pyMin_mem firstKey c0 cs
  · intro c hcmem
    have hle := pyMin_le firstKey c0 cs c hcmem
    rw [firstKey, firstKey] at hle
    rcases (Prod.Lex.le_iff _ _).mp hle with hlt | ⟨heq, hstr⟩
    · refine ⟨le_of_lt hlt, fun hq => ?_⟩
      rw [hq] at hlt
      exact absurd hlt (lt_irrefl _)
    · exact ⟨le_of_eq heq, fun _ => hstr⟩

/-- Witness for C3 at a concrete input. -/
theorem C3_witness :
    ∃ t : TabEvent, notes_to_tab [NoteEvent.mk 0 1 69 1] = [t] ∧
      (t.string, t.fret) ∈ candidates_for_midi (NoteEvent.mk 0 1 69 1).midi ∧
      ∀ c ∈ candidates_for_midi (NoteEvent.mk 0 1 69 1).midi,
        t.fret ≤ c.2 ∧ (c.2 = t.fret → t.string ≤ c.1) :=
  C3_first_note_rule (NoteEvent.mk 0 1 69 1) (by decide)

/-- C5: notes with no candidate are silently dropped: the output is the same
as for the playable-only input (so the previous-position memory ignores
skipped notes and surrounding playable notes still appear), and every output
event has a playable pitch. -/
theorem C5_unplayable_dropped (ns : List NoteEvent) :
    notes_to_tab ns = notes_to_tab (ns.filter playable) ∧
      ∀ t ∈ notes_to_tab ns, candidates_for_midi t.midi ≠ [] := by
  constructor
  · rw [notes_to_tab_eq, notes_to_tab_eq, ← filter_sortOn, tabLoop_filter]
  · intro t ht hcnil
    rw [notes_to_tab_eq] at ht
    have hm := tabLoop_mem_candidates none (sortOn NoteEvent.start_time ns) t ht
    rw [hcnil] at hm
    cases hm

/-- Witness for C5 at a concrete input with an unplayable middle note
(pitch 40 is below every open string). -/
theorem C5_witness :
    notes_to_tab [NoteEvent.mk 0 1 69 1, NoteEvent.mk 1 2 40 1, NoteEvent.mk 2 3 72 1] =
      notes_to_tab ([NoteEvent.mk 0 1 69 1, NoteEvent.mk 1 2 40 1,
        NoteEvent.mk 2 3 72 1].filter playable) ∧
      candidates_for_midi (TabEvent.mk 0 1 2 0 69).midi ≠ [] :=
  ⟨(C5_unplayable_dropped _).1,
    (C5_unplayable_dropped [NoteEvent.mk 0 1 69 1, NoteEvent.mk 1 2 40 1,
      NoteEvent.mk 2 3 72 1]).2 (TabEvent.mk 0 1 2 0 69) (by decide)⟩

/-- C6: the resolver stably sorts its input by start time before processing:
the output is non-decreasing in start time, its copied data is exactly the
playable part of the sorted input in order, and two input notes with equal
start times keep their relative order in the sorted sequence the resolver
processes. -/
theorem C6_sorted_and_stable (ns : List NoteEvent) :
    (notes_to_tab ns).Pairwise (fun a b => a.start_time ≤ b.start_time) ∧
      (notes_to_tab ns).map tabSig =
        ((sortOn NoteEvent.start_time ns).filter playable).map noteSig ∧
      ∀ a b : NoteEvent, [a, b].Sublist ns → a.start_time = b.start_time →
        [a, b].Sublist (sortOn NoteEvent.start_time ns) := by
  have hsig : (notes_to_tab ns).map tabSig =
      ((sortOn NoteEvent.start_time ns).filter playable).map noteSig := by
    rw [notes_to_tab_eq]
    exact tabLoop_sig none _
  refine ⟨?_, hsig, ?_⟩
  · have hsorted : ((sortOn NoteEvent.start_time ns).filter playable).Pairwise
        (fun a b => a.start_time ≤ b.start_time) :=
      List.Pairwise.sublist (List.filter_sublist _) (sorted_sortOn NoteEvent.start_time ns)
    have h1 : (((sortOn NoteEvent.start_time ns).filter playable).map noteSig).Pairwise
        (fun x y : ℚ × ℚ × ℤ => x.1 ≤ y.1) :=
      List.pairwise_map.mpr (hsorted.imp fun hab => hab)
    rw [← hsig] at h1
    exact (List.pairwise_map.mp h1).imp fun hab => hab
  · intro a b hsub heq
    exact sortOn_stable_pair NoteEvent.start_time hsub (le_of_eq heq)

/-- Witness for C6 at a concrete input with a tie in start times. -/
theorem C6_witness :
    (notes_to_tab [NoteEvent.mk 1 2 71 1, NoteEvent.mk 0 1 69 1,
      NoteEvent.mk 1 2 74 1]).Pairwise (fun a b => a.start_time ≤ b.start_time) ∧
      (notes_to_tab [NoteEvent.mk 1 2 71 1, NoteEvent.mk 0 1 69 1,
        NoteEvent.mk 1 2 74 1]).map tabSig =
        ((sortOn NoteEvent.start_time [NoteEvent.mk 1 2 71 1, NoteEvent.mk 0 1 69 1,
          NoteEvent.mk 1 2 74 1]).filter playable).map noteSig ∧
      [NoteEvent.mk 1 2 71 1, NoteEvent.mk 1 2 74 1].Sublist
        (sortOn NoteEvent.start_time [NoteEvent.mk 1 2 71 1, NoteEvent.mk 0 1 69 1,
          NoteEvent.mk 1 2 74 1]) :=
  ⟨(C6_sorted_and_stable _).1, (C6_sorted_and_stable _).2.1,
    (C6_sorted_and_stable [NoteEvent.mk 1 2 71 1, NoteEvent.mk 0 1 69 1,
      NoteEvent.mk 1 2 74 1]).2.2 (NoteEvent.mk 1 2 71 1) (NoteEvent.mk 1 2 74 1)
      (by decide) (by decide)⟩

/-- C9: the confidence field has no effect on the resolver's output. -/
theorem C9_confidence_irrelevant (ns₁ ns₂ : List NoteEvent)
    (h : ns₁.map stripConf = ns₂.map stripConf) :
    notes_to_tab ns₁ = notes_to_tab ns₂ := by
  rw [notes_to_tab_eq, notes_to_tab_eq]
  apply tabLoop_congr
  have hk : ∀ z : NoteEvent, NoteEvent.start_time (stripConf z) = NoteEvent.start_time z :=
    fun z => rfl
  rw [← sortOn_map NoteEvent.start_time stripConf hk, ← sortOn_map NoteEvent.start_time stripConf hk, h]

/-- Witness for C9 at concrete inputs differing only in confidence. -/
theorem C9_witness :
    notes_to_tab [NoteEvent.mk 0 1 69 1] = notes_to_tab [NoteEvent.mk 0 1 69 0] :=
  C9_confidence_irrelevant [NoteEvent.mk 0 1 69 1] [NoteEvent.mk 0 1 69 0] (by decide)

/-- C10: `candidates_for_midi` generates candidates in the tuning table's
insertion order (string 4, 3, 2, 1); with a previous position the returned
candidate is the first generated one achieving the minimal cost, so any
equal-cost candidate has a string index at most the returned one's. -/
theorem C10_tie_goes_to_first_generated (m : ℤ) (p : TabEvent) (r : ℤ × ℤ)
    (h : choose_position m (some p) = some r) :
    ((candidates_for_midi m).map Prod.fst).Sublist [4, 3, 2, 1] ∧
      (∃ l₁ l₂, candidates_for_midi m = l₁ ++ r :: l₂ ∧
        (∀ x ∈ l₁, score p r < score p x) ∧ (∀ x ∈ l₂, score p r ≤ score p x)) ∧
      ∀ c ∈ candidates_for_midi m, score p c = score p r → c.1 ≤ r.1 := by
  obtain ⟨c0, cs, hc⟩ : ∃ c0 cs, candidates_for_midi m = c0 :: cs := by
    rcases hx : candidates_for_midi m with _ | ⟨c0, cs⟩
    · rw [choose_position_none hx] at h
      cases h
    · exact ⟨c0, cs, rfl⟩
  rw [choose_position_cons_prev hc] at h
  cases h
  obtain ⟨l₁, l₂, heq, hlt⟩ := pyMin_split (score10 p) c0 cs
  have hsplit : candidates_for_midi m = l₁ ++ pyMin (score10 p) c0 cs :: l₂ :=
    hc.trans heq
  refine ⟨candidates_strings, ⟨l₁, l₂, hsplit, ?_, ?_⟩, ?_⟩
  · intro x hx
    exact (score10_lt_iff p _ x).mp (hlt x hx)
  · intro x hx
    refine (score10_le_iff p _ x).mp (pyMin_le (score10 p) c0 cs x ?_)
    rw [heq]
    exact List.mem_append.mpr (Or.inr (List.mem_cons.mpr (Or.inr hx)))
  · intro c hcmem hceq
    have hdesc := @candidates_strings_desc m
    rw [hsplit] at hdesc hcmem
    rcases List.mem_append.mp hcmem with h1 | h1
    · have hstrict := (score10_lt_iff p _ c).mp (hlt c h1)
      rw [hceq] at hstrict
      exact absurd hstrict (lt_irrefl _)
    rcases List.mem_cons.mp h1 with rfl | h1
    · exact le_rfl
    · have hsuffix := List.Pairwise.sublist (List.sublist_append_right l₁ _) hdesc
      exact le_of_lt ((List.pairwise_cons.mp hsuffix).1 c h1)

/-- Witness for C10 at a concrete input. -/
theorem C10_witness :
    ((candidates_for_midi 74).map Prod.fst).Sublist [4, 3, 2, 1] ∧
      (∃ l₁ l₂, candidates_for_midi 74 = l₁ ++ ((2, 5) : ℤ × ℤ) :: l₂ ∧
        (∀ x ∈ l₁, score (TabEvent.mk 0 1 2 3 72) (2, 5) < score (TabEvent.mk 0 1 2 3 72) x) ∧
        (∀ x ∈ l₂, score (TabEvent.mk 0 1 2 3 72) (2, 5) ≤ score (TabEvent.mk 0 1 2 3 72) x)) ∧
      ∀ c ∈ candidates_for_midi 74,
        score (TabEvent.mk 0 1 2 3 72) c = score (TabEvent.mk 0 1 2 3 72) (2, 5) →
          c.1 ≤ 2 :=
  C10_tie_goes_to_first_generated 74 (TabEvent.mk 0 1 2 3 72) (2, 5) (by decide)

/-- C4 (amended): for every non-empty input of N events the rendered text is
four newline-joined, newline-free lines of exactly 2 + 2*N + 1 characters
each (label, bar, N two-character cells, closing bar); the empty input is
special-cased to a header block whose lines have only 2 characters
(see the counterexample). -/
theorem C4_line_lengths (evs : List TabEvent) (h : evs ≠ []) :
    ∃ L1 L2 L3 L4 : List Char,
      render_ascii_tab evs =
        String.mk (L1 ++ '\n' :: (L2 ++ '\n' :: (L3 ++ '\n' :: L4))) ∧
      L1.length = 2 + 2 * evs.length + 1 ∧
      L2.length = 2 + 2 * evs.length + 1 ∧
      L3.length = 2 + 2 * evs.length + 1 ∧
      L4.length = 2 + 2 * evs.length + 1 ∧
      '\n' ∉ L1 ∧ '\n' ∉ L2 ∧ '\n' ∉ L3 ∧ '\n' ∉ L4 := by
  refine ⟨lineFor 'E' 1 (sortOn TabEvent.start_time evs),
    lineFor 'A' 2 (sortOn TabEvent.start_time evs),
    lineFor 'D' 3 (sortOn TabEvent.start_time evs),
    lineFor 'G' 4 (sortOn TabEvent.start_time evs),
    ?_, ?_, ?_, ?_, ?_, ?_, ?_, ?_, ?_⟩
  · rw [render_ascii_tab, if_neg (by simp [List.isEmpty_iff, h])]
  · rw [lineFor_length, length_sortOn]
  · rw [lineFor_length, length_sortOn]
  · rw [lineFor_length, length_sortOn]
  · rw [lineFor_length, length_sortOn]
  · exact newline_not_mem_lineFor (by decide) 1 _
  · exact newline_not_mem_lineFor (by decide) 2 _
  · exact newline_not_mem_lineFor (by decide) 3 _
  · exact newline_not_mem_lineFor (by decide) 4 _

/-- C4 counterexample: at the empty input the claimed decomposition would
need four lines of 3 characters (15 characters in total) but the code
returns a 12-character block. -/
theorem C4_cex :
    ¬ ∃ L1 L2 L3 L4 : List Char,
      render_ascii_tab [] =
        String.mk (L1 ++ '\n' :: (L2 ++ '\n' :: (L3 ++ '\n' :: L4))) ∧
      L1.length = 2 + 2 * ([] : List TabEvent).length + 1 ∧
      L2.length = 2 + 2 * ([] : List TabEvent).length + 1 ∧
      L3.length = 2 + 2 * ([] : List TabEvent).length + 1 ∧
      L4.length = 2 + 2 * ([] : List TabEvent).length + 1 := by
  rintro ⟨L1, L2, L3, L4, heq, h1, h2, h3, h4⟩
  have hdlen : (render_ascii_tab []).data.length =
      (L1 ++ '\n' :: (L2 ++ '\n' :: (L3 ++ '\n' :: L4))).length := by
    rw [heq]
  have h12 : (render_ascii_tab []).data.length = 12 := by decide
  rw [h12] at hdlen
  simp only [List.length_append, List.length_cons, List.length_nil] at hdlen h1 h2 h3 h4
  omega

/-- Witness for C4 at a concrete non-empty input. -/
theorem C4_witness :
    ∃ L1 L2 L3 L4 : List Char,
      render_ascii_tab [TabEvent.mk 0 1 2 0 69] =
        String.mk (L1 ++ '\n' :: (L2 ++ '\n' :: (L3 ++ '\n' :: L4))) ∧
      L1.length = 2 + 2 * [TabEvent.mk 0 1 2 0 69].length + 1 ∧
      L2.length = 2 + 2 * [TabEvent.mk 0 1 2 0 69].length + 1 ∧
      L3.length = 2 + 2 * [TabEvent.mk 0 1 2 0 69].length + 1 ∧
      L4.length = 2 + 2 * [TabEvent.mk 0 1 2 0 69].length + 1 ∧
      '\n' ∉ L1 ∧ '\n' ∉ L2 ∧ '\n' ∉ L3 ∧ '\n' ∉ L4 :=
  C4_line_lengths [TabEvent.mk 0 1 2 0 69] (by decide)

/-- C7 (amended): on empty input the resolver returns the empty sequence and
the renderer returns the four header lines each terminated by a newline —
with a trailing newline, unlike the non-empty case. -/
theorem C7_empty_input :
    notes_to_tab [] = [] ∧
      render_ascii_tab [] = "E|\nA|\nD|\nG|\n" ∧
      render_ascii_tab [] =
        "E|" ++ "\n" ++ "A|" ++ "\n" ++ "D|" ++ "\n" ++ "G|" ++ "\n" := by
  refine ⟨rfl, rfl, ?_⟩
  decide

/-- C7 counterexample: the empty-input render is not the four header lines
joined by newlines — the code appends a trailing newline. -/
theorem C7_cex :
    render_ascii_tab [] ≠ "E|" ++ "\n" ++ "A|" ++ "\n" ++ "D|" ++ "\n" ++ "G|" := by
  decide

/-- C8: the sounding-string cell is always exactly 2 characters for any
non-negative fret however large; a single-digit fret is left-padded with the
fill character and a fret of three or more decimal digits is truncated to
its last two digits. -/
theorem C8_cell_pad_and_truncate (ev : TabEvent) (h : 0 ≤ ev.fret) :
    (cellFor ev.string ev).length = 2 ∧
      (ev.fret < 10 → cellFor ev.string ev = ['-', digitChar ev.fret.toNat]) ∧
      (100 ≤ ev.fret → cellFor ev.string ev =
        [digitChar (ev.fret.toNat / 10 % 10), digitChar (ev.fret.toNat % 10)]) := by
  have hcell : cellFor ev.string ev = fretCell ev := by
    rw [cellFor, if_pos rfl]
  have hstr : pyStr ev.fret = decDigits ev.fret.toNat := by
    rw [pyStr, if_neg (not_lt.mpr h)]
  refine ⟨by rw [hcell]; exact fretCell_length ev, ?_, ?_⟩
  · intro hf
    rw [hcell, fretCell, hstr, decDigits_lt (by omega : ev.fret.toNat < 10)]
    rfl
  · intro hf
    obtain ⟨pre, hpre, hplen⟩ := decDigits_big (by omega : 100 ≤ ev.fret.toNat)
    rw [hcell, fretCell, hstr, hpre]
    have hlen : (pre ++ [digitChar (ev.fret.toNat / 10 % 10),
        digitChar (ev.fret.toNat % 10)]).length = pre.length + 2 := by
      simp
    rw [if_neg (by rw [hlen]; omega), hlen]
    have harg : pre.length + 2 - 2 = pre.length := by omega
    rw [harg, List.drop_left]

/-- Witness for C8 at a concrete event with a three-digit fret. -/
theorem C8_witness :
    (cellFor (TabEvent.mk 0 1 2 123 0).string (TabEvent.mk 0 1 2 123 0)).length = 2 ∧
      ((TabEvent.mk 0 1 2 123 0).fret < 10 →
        cellFor (TabEvent.mk 0 1 2 123 0).string (TabEvent.mk 0 1 2 123 0) =
          ['-', digitChar (TabEvent.mk 0 1 2 123 0).fret.toNat]) ∧
      (100 ≤ (TabEvent.mk 0 1 2 123 0).fret →
        cellFor (TabEvent.mk 0 1 2 123 0).string (TabEvent.mk 0 1 2 123 0) =
          [digitChar ((TabEvent.mk 0 1 2 123 0).fret.toNat / 10 % 10),
            digitChar ((TabEvent.mk 0 1 2 123 0).fret.toNat % 10)]) :=
  C8_cell_pad_and_truncate (TabEvent.mk 0 1 2 123 0) (by decide)

/-- End-to-end check of the source's own demo melody (A4, B4, C5, D5): every
note lands on the A string at frets 0, 2, 3, 5. -/
theorem demo_resolution :
    notes_to_tab [⟨0, 1, 69, 1⟩, ⟨1, 2, 71, 1⟩, ⟨2, 3, 72, 1⟩, ⟨3, 4, 74, 1⟩] =
      [⟨0, 1, 2, 0, 69⟩, ⟨1, 2, 2, 2, 71⟩, ⟨2, 3, 2, 3, 72⟩, ⟨3, 4, 2, 5, 74⟩] := by
  decide

/-- End-to-end check of the rendered text for the demo melody. -/
theorem demo_render :
    render_ascii_tab [⟨0, 1, 2, 0, 69⟩, ⟨1, 2, 2, 2, 71⟩, ⟨2, 3, 2, 3, 72⟩,
      ⟨3, 4, 2, 5, 74⟩] =
      "E|--------|\nA|-0-2-3-5|\nD|--------|\nG|--------|" := by
  decide

/-- The renderer truncates a three-digit fret to its last two digits. -/
theorem demo_render_truncation :
    render_ascii_tab [⟨0, 1, 2, 123, 0⟩] = "E|--|\nA|23|\nD|--|\nG|--|" := by
  decide

end Mandotab
